import Mathlib

/-!
Verification of the apodize window-function library (src/lib.rs).

The library computes generalized cosine windows (Hann, Hamming, Blackman,
Nuttall).  Floating-point values are idealized as real numbers (`ℝ`); the
`usize` size and index are `ℕ`.  The Rust iterator `CosineWindowIter<T>`
becomes a record plus an explicit-state `next` returning `Option ℝ × state`.
The `assert!(size > 1)` in `cosine_iter` is modelled by returning `Option`:
`none` is the assertion failure (panic), `some` a successfully constructed
iterator.

For the one claim about IEEE special values (division by zero at `size = 1`
inside `cosine_at`), a second embedding `fpCosine_at` over `FpVal` is given:
exact real arithmetic extended with `inf`, `ninf` and `nan`, following the
IEEE-754 rules for special operands (rounding is not modelled, and the sign
of zero is collapsed; the claims settled against it only exercise the
`0 / 0 = nan` propagation path, which is exact).
-/

namespace Apodize

/-- Embedding of `cosine_at` (src/lib.rs lines 130-144): the generalized
cosine window value at `index`.  `x = (pi * index) / (size - 1)` with the
subtraction performed on `usize` (here truncated `ℕ` subtraction, as in the
source) and then converted to the float type; the result is
`(a - b*cos(2x)) + (c*cos(4x) - d*cos(6x))`.  The source has no assertion
and no bounds check here. -/
noncomputable def cosine_at (a b c d : ℝ) (size index : ℕ) : ℝ :=
  let x : ℝ := (Real.pi * (index : ℝ)) / (((size - 1 : ℕ)) : ℝ)
  let b_ : ℝ := b * Real.cos (2 * x)
  let c_ : ℝ := c * Real.cos (4 * x)
  let d_ : ℝ := d * Real.cos (6 * x)
  (a - b_) + (c_ - d_)

/-- Embedding of `struct CosineWindowIter<T>` (src/lib.rs lines 97-104):
window coefficients plus the iteration state. -/
structure CosineWindowIter where
  a : ℝ
  b : ℝ
  c : ℝ
  d : ℝ
  index : ℕ
  size : ℕ

/-- Embedding of `CosineWindowIter::next` (src/lib.rs lines 109-122).
The `&mut self` mutation becomes explicit state passing: the result is the
yielded `Option` value together with the successor state.  When
`index == size` the iterator is exhausted and the state is unchanged;
otherwise the value at the current index is yielded and the cursor advances
by one. -/
noncomputable def CosineWindowIter.next (s : CosineWindowIter) :
    Option ℝ × CosineWindowIter :=
  if s.index = s.size then (none, s)
  else (some (cosine_at s.a s.b s.c s.d s.size s.index),
    { s with index := s.index + 1 })

/-- State of the iterator after `n` calls to `next`. -/
noncomputable def CosineWindowIter.nthState (s : CosineWindowIter) :
    ℕ → CosineWindowIter
  | 0 => s
  | n + 1 => (CosineWindowIter.nthState s n).next.2

/-- Value returned by the `(n+1)`-th call to `next` (so `nthOutput s 0` is
the first yielded value and `nthOutput s k` the `k`-th element of the
sequence, in emission order). -/
noncomputable def CosineWindowIter.nthOutput (s : CosineWindowIter) (n : ℕ) :
    Option ℝ :=
  (s.nthState n).next.1

/-- Embedding of `cosine_iter` (src/lib.rs lines 149-165).  The
`assert!(size > 1)` is modelled by `Option`: `none` is the panic for
`size <= 1`, otherwise the iterator starts with `index = 0`. -/
def cosine_iter (a b c d : ℝ) (size : ℕ) : Option CosineWindowIter :=
  if 1 < size then some ⟨a, b, c, d, 0, size⟩ else none

/-- Embedding of `hanning_iter` (src/lib.rs lines 169-176). -/
noncomputable def hanning_iter (size : ℕ) : Option CosineWindowIter :=
  cosine_iter 0.5 0.5 0 0 size

/-- Embedding of `hamming_iter` (src/lib.rs lines 180-187). -/
noncomputable def hamming_iter (size : ℕ) : Option CosineWindowIter :=
  cosine_iter 0.54 0.46 0 0 size

/-- Embedding of `blackman_iter` (src/lib.rs lines 191-198). -/
noncomputable def blackman_iter (size : ℕ) : Option CosineWindowIter :=
  cosine_iter 0.35875 0.48829 0.14128 0.01168 size

/-- Embedding of `nuttall_iter` (src/lib.rs lines 202-209). -/
noncomputable def nuttall_iter (size : ℕ) : Option CosineWindowIter :=
  cosine_iter 0.355768 0.487396 0.144232 0.012604 size

/-- For `size > 1`, `cosine_iter` succeeds and returns the iterator with
cursor `0`. -/
lemma cosine_iter_some (a b c d : ℝ) (size : ℕ) (h : 1 < size) :
    cosine_iter a b c d size = some ⟨a, b, c, d, 0, size⟩ := by
  simp [cosine_iter, h]

/-- After `n` calls to `next`, an iterator started at cursor `0` has cursor
`min n size` and unchanged coefficients. -/
lemma nthState_mk (a b c d : ℝ) (size : ℕ) :
    ∀ n, (CosineWindowIter.mk a b c d 0 size).nthState n =
      CosineWindowIter.mk a b c d (min n size) size := by
  intro n
  induction n with
  | zero => simp [CosineWindowIter.nthState]
  | succ n ih =>
      rw [CosineWindowIter.nthState, ih]
      by_cases h : min n size = size
      · have hs : size ≤ n := by omega
        have h1 : min (n + 1) size = size := by omega
        simp [CosineWindowIter.next, h, h1]
      · have hn : n < size := by omega
        have h0 : min n size = n := by omega
        have h1 : min (n + 1) size = n + 1 := by omega
        simp [CosineWindowIter.next, h0, h1, Nat.ne_of_lt hn]

/-- The `k`-th yielded value, for `k < size`, is `cosine_at` at index `k`. -/
lemma nthOutput_mk_lt (a b c d : ℝ) (size k : ℕ) (hk : k < size) :
    (CosineWindowIter.mk a b c d 0 size).nthOutput k =
      some (cosine_at a b c d size k) := by
  have h0 : min k size = k := by omega
  rw [CosineWindowIter.nthOutput, nthState_mk, h0, CosineWindowIter.next]
  simp [Nat.ne_of_lt hk]

/-- Every call past the first `size` calls returns `none`. -/
lemma nthOutput_mk_ge (a b c d : ℝ) (size k : ℕ) (hk : size ≤ k) :
    (CosineWindowIter.mk a b c d 0 size).nthOutput k = none := by
  have h0 : min k size = size := by omega
  rw [CosineWindowIter.nthOutput, nthState_mk, h0, CosineWindowIter.next]
  simp

/-- Reflection of cosine about `pi`: `cos (2*pi - t) = cos t`. -/
lemma cos_two_pi_sub (t : ℝ) : Real.cos (2 * Real.pi - t) = Real.cos t := by
  rw [Real.cos_sub, Real.cos_two_pi, Real.sin_two_pi]
  ring

/-- Reflection of cosine about `2*pi`: `cos (4*pi - t) = cos t`. -/
lemma cos_four_pi_sub (t : ℝ) : Real.cos (4 * Real.pi - t) = Real.cos t := by
  have h : 4 * Real.pi - t = (2 * Real.pi - t) + 2 * Real.pi := by ring
  rw [h, Real.cos_add_two_pi, cos_two_pi_sub]

/-- Reflection of cosine about `3*pi`: `cos (6*pi - t) = cos t`. -/
lemma cos_six_pi_sub (t : ℝ) : Real.cos (6 * Real.pi - t) = Real.cos t := by
  have h : 6 * Real.pi - t = (4 * Real.pi - t) + 2 * Real.pi := by ring
  rw [h, Real.cos_add_two_pi, cos_four_pi_sub]

/-- Rearrangement of the reflected argument: for a nonzero denominator `n`,
`m * (pi * (n - k) / n) = m * pi - m * (pi * k / n)`. -/
lemma mul_pi_frac_sub (m n k : ℝ) (hn : n ≠ 0) :
    m * (Real.pi * (n - k) / n) = m * Real.pi - m * (Real.pi * k / n) := by
  field_simp
  ring

/-- The generalized cosine formula is symmetric about the window midpoint,
for arbitrary coefficients: the value at `size - 1 - k` equals the value at
`k`. -/
lemma cosine_at_symm (a b c d : ℝ) (size k : ℕ) (h1 : 1 < size)
    (hk : k < size) :
    cosine_at a b c d size (size - 1 - k) = cosine_at a b c d size k := by
  have hn0 : 0 < size - 1 := by omega
  have hn : (0 : ℝ) < ((size - 1 : ℕ) : ℝ) := by exact_mod_cast hn0
  have hne : ((size - 1 : ℕ) : ℝ) ≠ 0 := ne_of_gt hn
  have hkle : k ≤ size - 1 := by omega
  have hcast : ((size - 1 - k : ℕ) : ℝ) = ((size - 1 : ℕ) : ℝ) - (k : ℝ) :=
    Nat.cast_sub hkle
  simp only [cosine_at, hcast]
  rw [mul_pi_frac_sub 2 _ _ hne, mul_pi_frac_sub 4 _ _ hne,
    mul_pi_frac_sub 6 _ _ hne]
  rw [cos_two_pi_sub, cos_four_pi_sub, cos_six_pi_sub]

/-- At index `0` the argument `x` is `0`, so all cosines are `1` and the
formula collapses to `(a - b) + (c - d)`. -/
lemma cosine_at_zero (a b c d : ℝ) (size : ℕ) :
    cosine_at a b c d size 0 = (a - b) + (c - d) := by
  simp [cosine_at]

/-- At the last index `size - 1` (for `size > 1`) the argument `x` is `pi`,
so the even-multiple cosines are again all `1` and the formula collapses to
`(a - b) + (c - d)`. -/
lemma cosine_at_last (a b c d : ℝ) (size : ℕ) (h1 : 1 < size) :
    cosine_at a b c d size (size - 1) = (a - b) + (c - d) := by
  have hn0 : 0 < size - 1 := by omega
  have hn : (0 : ℝ) < ((size - 1 : ℕ) : ℝ) := by exact_mod_cast hn0
  have hne : ((size - 1 : ℕ) : ℝ) ≠ 0 := ne_of_gt hn
  have hx : Real.pi * ((size - 1 : ℕ) : ℝ) / ((size - 1 : ℕ) : ℝ) =
      Real.pi := by
    rw [mul_div_assoc, div_self hne, mul_one]
  simp only [cosine_at, hx]
  have h2 : (2 : ℝ) * Real.pi = 2 * Real.pi - 0 := by ring
  have h4 : (4 : ℝ) * Real.pi = 4 * Real.pi - 0 := by ring
  have h6 : (6 : ℝ) * Real.pi = 6 * Real.pi - 0 := by ring
  rw [h2, h4, h6, cos_two_pi_sub, cos_four_pi_sub, cos_six_pi_sub,
    Real.cos_zero]
  ring

/-- IEEE-754-style value for the floating-point embedding: an exact real,
a signed infinity, or `nan`.  Rounding is not modelled and the sign of zero
is collapsed to `fin 0`; only the special-operand rules matter for the
claims settled against this type. -/
inductive FpVal where
  | fin : ℝ → FpVal
  | inf : FpVal
  | ninf : FpVal
  | nan : FpVal

namespace FpVal

/-- IEEE addition on `FpVal`: `nan` propagates, `inf + ninf = nan`. -/
noncomputable def add : FpVal → FpVal → FpVal
  | nan, _ => nan
  | _, nan => nan
  | fin x, fin y => fin (x + y)
  | fin _, inf => inf
  | fin _, ninf => ninf
  | inf, fin _ => inf
  | ninf, fin _ => ninf
  | inf, inf => inf
  | ninf, ninf => ninf
  | inf, ninf => nan
  | ninf, inf => nan

/-- IEEE subtraction on `FpVal`: `nan` propagates, `inf - inf = nan`. -/
noncomputable def sub : FpVal → FpVal → FpVal
  | nan, _ => nan
  | _, nan => nan
  | fin x, fin y => fin (x - y)
  | fin _, inf => ninf
  | fin _, ninf => inf
  | inf, fin _ => inf
  | ninf, fin _ => ninf
  | inf, ninf => inf
  | ninf, inf => ninf
  | inf, inf => nan
  | ninf, ninf => nan

/-- IEEE multiplication on `FpVal`: `nan` propagates, `0 * inf = nan`. -/
noncomputable def mul : FpVal → FpVal → FpVal
  | nan, _ => nan
  | _, nan => nan
  | fin x, fin y => fin (x * y)
  | fin x, inf => if x = 0 then nan else if 0 < x then inf else ninf
  | fin x, ninf => if x = 0 then nan else if 0 < x then ninf else inf
  | inf, fin y => if y = 0 then nan else if 0 < y then inf else ninf
  | ninf, fin y => if y = 0 then nan else if 0 < y then ninf else inf
  | inf, inf => inf
  | inf, ninf => ninf
  | ninf, inf => ninf
  | ninf, ninf => inf

/-- IEEE division on `FpVal`: `nan` propagates, `0 / 0 = nan`, a nonzero
finite value divided by zero is a signed infinity (sign of zero collapsed:
the zero denominator counts as `+0`), `inf / inf = nan`. -/
noncomputable def div : FpVal → FpVal → FpVal
  | nan, _ => nan
  | _, nan => nan
  | fin x, fin y =>
      if y = 0 then (if x = 0 then nan else if 0 < x then inf else ninf)
      else fin (x / y)
  | fin _, inf => fin 0
  | fin _, ninf => fin 0
  | inf, fin y => if 0 ≤ y then inf else ninf
  | ninf, fin y => if 0 ≤ y then ninf else inf
  | inf, inf => nan
  | inf, ninf => nan
  | ninf, inf => nan
  | ninf, ninf => nan

/-- IEEE cosine on `FpVal`: `cos` of an infinity or of `nan` is `nan`. -/
noncomputable def cos : FpVal → FpVal
  | fin x => fin (Real.cos x)
  | _ => nan

/-- Whether the value is an ordinary finite number (not `inf`, `ninf` or
`nan`). -/
def isFinite : FpVal → Bool
  | fin _ => true
  | _ => false

end FpVal

/-- Second embedding of `cosine_at` (src/lib.rs lines 130-144) over `FpVal`,
keeping the IEEE special values that the real-number idealization `cosine_at`
collapses.  Same expression structure as the source: `x` is
`(pi * index) / (size - 1)` with the `usize` subtraction truncated. -/
noncomputable def fpCosine_at (a b c d : FpVal) (size index : ℕ) : FpVal :=
  let pi : FpVal := .fin Real.pi
  let x : FpVal := (pi.mul (.fin (index : ℝ))).div (.fin (((size - 1 : ℕ)) : ℝ))
  let b_ : FpVal := b.mul (((FpVal.fin 2).mul x).cos)
  let c_ : FpVal := c.mul (((FpVal.fin 4).mul x).cos)
  let d_ : FpVal := d.mul (((FpVal.fin 6).mul x).cos)
  (a.sub b_).add (c_.sub d_)

/-- Multiplying two finite values multiplies the reals. -/
lemma FpVal.mul_fin_fin (x y : ℝ) :
    (FpVal.fin x).mul (.fin y) = .fin (x * y) := rfl

/-- Multiplying a finite value by `nan` gives `nan`. -/
lemma FpVal.mul_fin_nan (x : ℝ) : (FpVal.fin x).mul .nan = .nan := rfl

/-- Multiplying `nan` by anything gives `nan`. -/
lemma FpVal.mul_nan_left (v : FpVal) : FpVal.nan.mul v = .nan := by
  cases v <;> rfl

/-- Subtracting `nan` from a finite value gives `nan`. -/
lemma FpVal.sub_fin_nan (x : ℝ) : (FpVal.fin x).sub .nan = .nan := rfl

/-- Subtracting anything from `nan` gives `nan`. -/
lemma FpVal.sub_nan_left (v : FpVal) : FpVal.nan.sub v = .nan := by
  cases v <;> rfl

/-- Adding anything to `nan` gives `nan`. -/
lemma FpVal.add_nan_left (v : FpVal) : FpVal.nan.add v = .nan := by
  cases v <;> rfl

/-- Cosine of `nan` is `nan`. -/
lemma FpVal.cos_nan : FpVal.cos .nan = .nan := rfl

/-- The IEEE hallmark of `cosine_at` at `size = 1`: `0 / 0 = nan`. -/
lemma FpVal.div_fin_zero_zero : (FpVal.fin 0).div (.fin 0) = .nan := by
  simp [FpVal.div]

/-- Evaluating the `FpVal` embedding of `cosine_at` at `size = 1`,
`index = 0` with finite coefficients: `x = (pi * 0) / 0 = nan` and the
`nan` propagates through every later operation. -/
lemma fpCosine_at_one_zero (a b c d : ℝ) :
    fpCosine_at (.fin a) (.fin b) (.fin c) (.fin d) 1 0 = FpVal.nan := by
  simp only [fpCosine_at, Nat.cast_zero, Nat.sub_self, FpVal.mul_fin_fin,
    mul_zero, FpVal.div_fin_zero_zero, FpVal.mul_fin_nan, FpVal.cos_nan,
    FpVal.sub_fin_nan, FpVal.sub_nan_left, FpVal.add_nan_left]

/-- C1: for every real coefficients `a b c d` and every `size > 1`, the
`k`-th value yielded by the iterator built by `cosine_iter` (for
`k = 0 .. size-1`, in emission order) is `some (cosine_at a b c d size k)`,
the generalized cosine formula at `x = pi * k / (size - 1)`. -/
theorem cosine_iter_kth_value (a b c d : ℝ) (size k : ℕ) (h1 : 1 < size)
    (hk : k < size) (it : CosineWindowIter)
    (hit : cosine_iter a b c d size = some it) :
    it.nthOutput k = some (cosine_at a b c d size k) := by
  rw [cosine_iter_some a b c d size h1] at hit
  injection hit with h
  subst h
  exact nthOutput_mk_lt a b c d size k hk

/-- Witness for C1 at `a = 1`, `b = c = d = 0`, `size = 2`, `k = 0`. -/
theorem cosine_iter_kth_value_witness :
    (1 : ℕ) < 2 ∧ (0 : ℕ) < 2 ∧
      cosine_iter 1 0 0 0 2 = some ⟨1, 0, 0, 0, 0, 2⟩ ∧
      (CosineWindowIter.mk 1 0 0 0 0 2).nthOutput 0 =
        some (cosine_at 1 0 0 0 2 0) :=
  ⟨by omega, by omega, rfl,
    cosine_iter_kth_value 1 0 0 0 2 0 (by omega) (by omega) _ rfl⟩

/-- C2: for every `size > 1` and coefficients, the sequence is finite with
exactly `size` elements: each of the first `size` calls to `next` yields a
value, and the `(size+1)`-th call returns `none`. -/
theorem cosine_iter_yields_size_values (a b c d : ℝ) (size : ℕ)
    (h1 : 1 < size) (it : CosineWindowIter)
    (hit : cosine_iter a b c d size = some it) :
    (∀ k, k < size → ∃ v, it.nthOutput k = some v) ∧
      it.nthOutput size = none := by
  rw [cosine_iter_some a b c d size h1] at hit
  injection hit with h
  subst h
  constructor
  · intro k hk
    exact ⟨_, nthOutput_mk_lt a b c d size k hk⟩
  · exact nthOutput_mk_ge a b c d size size le_rfl

/-- Witness for C2 at `a = 1`, `b = c = d = 0`, `size = 2`. -/
theorem cosine_iter_yields_size_values_witness :
    (1 : ℕ) < 2 ∧
      ((∀ k, k < 2 → ∃ v,
          (CosineWindowIter.mk 1 0 0 0 0 2).nthOutput k = some v) ∧
        (CosineWindowIter.mk 1 0 0 0 0 2).nthOutput 2 = none) :=
  ⟨by omega, cosine_iter_yields_size_values 1 0 0 0 2 (by omega) _ rfl⟩

/-- C3: each preset constructor delegates to `cosine_iter` with the fixed
coefficients of the preset table and the caller-supplied `size`, producing
the identical iterator and hence identical yielded sequences. -/
theorem preset_iters_delegate (size : ℕ) (h1 : 1 < size) :
    hanning_iter size = cosine_iter 0.5 0.5 0 0 size ∧
    hamming_iter size = cosine_iter 0.54 0.46 0 0 size ∧
    blackman_iter size = cosine_iter 0.35875 0.48829 0.14128 0.01168 size ∧
    nuttall_iter size = cosine_iter 0.355768 0.487396 0.144232 0.012604 size ∧
    ∀ k : ℕ,
      Option.map (fun s => s.nthOutput k) (hanning_iter size) =
        Option.map (fun s => s.nthOutput k)
          (cosine_iter 0.5 0.5 0 0 size) ∧
      Option.map (fun s => s.nthOutput k) (hamming_iter size) =
        Option.map (fun s => s.nthOutput k)
          (cosine_iter 0.54 0.46 0 0 size) ∧
      Option.map (fun s => s.nthOutput k) (blackman_iter size) =
        Option.map (fun s => s.nthOutput k)
          (cosine_iter 0.35875 0.48829 0.14128 0.01168 size) ∧
      Option.map (fun s => s.nthOutput k) (nuttall_iter size) =
        Option.map (fun s => s.nthOutput k)
          (cosine_iter 0.355768 0.487396 0.144232 0.012604 size) :=
  ⟨rfl, rfl, rfl, rfl, fun _ => ⟨rfl, rfl, rfl, rfl⟩⟩

/-- Witness for C3 at `size = 2`. -/
theorem preset_iters_delegate_witness :
    (1 : ℕ) < 2 ∧ hanning_iter 2 = cosine_iter 0.5 0.5 0 0 2 :=
  ⟨by omega, (preset_iters_delegate 2 (by omega)).1⟩

/-- C4: constructing a generator with `size <= 1` fails fast at
construction time (the `assert!(size > 1)` panic, modelled as `none`) for
`cosine_iter` and all four presets, and construction succeeds exactly when
`size > 1`. -/
theorem constructors_reject_small_size (a b c d : ℝ) (size : ℕ) :
    (cosine_iter a b c d size = none ↔ size ≤ 1) ∧
    (hanning_iter size = none ↔ size ≤ 1) ∧
    (hamming_iter size = none ↔ size ≤ 1) ∧
    (blackman_iter size = none ↔ size ≤ 1) ∧
    (nuttall_iter size = none ↔ size ≤ 1) ∧
    ((cosine_iter a b c d size).isSome ↔ 1 < size) ∧
    ((hanning_iter size).isSome ↔ 1 < size) ∧
    ((hamming_iter size).isSome ↔ 1 < size) ∧
    ((blackman_iter size).isSome ↔ 1 < size) ∧
    ((nuttall_iter size).isSome ↔ 1 < size) := by
  unfold hanning_iter hamming_iter blackman_iter nuttall_iter
  by_cases h : 1 < size <;>
    simp [cosine_iter, h] <;> omega

/-- C5: for a generator constructed with `size > 1`, after any number `k` of
`next` calls the cursor satisfies `0 <= index <= size`; the iterator yields
`none` exactly when `index = size`; and every yielded value is the formula
evaluated at the current cursor, which is then `< size` — the sequence never
evaluates `cosine_at` out of range. -/
theorem cursor_invariant (a b c d : ℝ) (size k : ℕ) (h1 : 1 < size)
    (it : CosineWindowIter) (hit : cosine_iter a b c d size = some it) :
    (it.nthState k).index ≤ size ∧
    ((it.nthState k).next.1 = none ↔ (it.nthState k).index = size) ∧
    ∀ v, it.nthOutput k = some v →
      (it.nthState k).index < size ∧
        v = cosine_at a b c d size (it.nthState k).index := by
  rw [cosine_iter_some a b c d size h1] at hit
  injection hit with h
  subst h
  rw [nthState_mk]
  refine ⟨by simp, ?_, ?_⟩
  · by_cases hm : min k size = size
    · simp [CosineWindowIter.next, hm]
    · simp [CosineWindowIter.next, hm]
  · intro v hv
    by_cases hm : min k size = size
    · rw [CosineWindowIter.nthOutput, nthState_mk] at hv
      simp [CosineWindowIter.next, hm] at hv
    · rw [CosineWindowIter.nthOutput, nthState_mk] at hv
      simp only [CosineWindowIter.next, hm, if_false] at hv
      injection hv with hv
      refine ⟨?_, hv.symm⟩
      show min k size < size
      omega

/-- Witness for C5 at `a = 1`, `b = c = d = 0`, `size = 2`, `k = 1`. -/
theorem cursor_invariant_witness :
    (1 : ℕ) < 2 ∧
      (((CosineWindowIter.mk 1 0 0 0 0 2).nthState 1).index ≤ 2 ∧
      (((CosineWindowIter.mk 1 0 0 0 0 2).nthState 1).next.1 = none ↔
        ((CosineWindowIter.mk 1 0 0 0 0 2).nthState 1).index = 2) ∧
      ∀ v, (CosineWindowIter.mk 1 0 0 0 0 2).nthOutput 1 = some v →
        ((CosineWindowIter.mk 1 0 0 0 0 2).nthState 1).index < 2 ∧
          v = cosine_at 1 0 0 0 2
            ((CosineWindowIter.mk 1 0 0 0 0 2).nthState 1).index) :=
  ⟨by omega, cursor_invariant 1 0 0 0 2 1 (by omega) _ rfl⟩

/-- C6: each of the four preset windows is symmetric about its midpoint:
for `size > 1` and `k < size`, the yielded value at index `k` equals the
yielded value at index `size - 1 - k` (exactly, in the real-number
idealization of floating point). -/
theorem preset_windows_symmetric (size k : ℕ) (h1 : 1 < size)
    (hk : k < size) (it1 it2 it3 it4 : CosineWindowIter)
    (hh : hanning_iter size = some it1)
    (hm : hamming_iter size = some it2)
    (hb : blackman_iter size = some it3)
    (hn : nuttall_iter size = some it4) :
    it1.nthOutput k = it1.nthOutput (size - 1 - k) ∧
    it2.nthOutput k = it2.nthOutput (size - 1 - k) ∧
    it3.nthOutput k = it3.nthOutput (size - 1 - k) ∧
    it4.nthOutput k = it4.nthOutput (size - 1 - k) := by
  rw [hanning_iter, cosine_iter_some _ _ _ _ _ h1] at hh
  rw [hamming_iter, cosine_iter_some _ _ _ _ _ h1] at hm
  rw [blackman_iter, cosine_iter_some _ _ _ _ _ h1] at hb
  rw [nuttall_iter, cosine_iter_some _ _ _ _ _ h1] at hn
  injection hh with hh
  injection hm with hm
  injection hb with hb
  injection hn with hn
  subst hh
  subst hm
  subst hb
  subst hn
  have hk2 : size - 1 - k < size := by omega
  refine ⟨?_, ?_, ?_, ?_⟩ <;>
    rw [nthOutput_mk_lt _ _ _ _ _ _ hk, nthOutput_mk_lt _ _ _ _ _ _ hk2] <;>
    exact congrArg some (cosine_at_symm _ _ _ _ _ _ h1 hk).symm

/-- Witness for C6 at `size = 3`, `k = 0`. -/
theorem preset_windows_symmetric_witness :
    (1 : ℕ) < 3 ∧ (0 : ℕ) < 3 ∧
      ((CosineWindowIter.mk 0.5 0.5 0 0 0 3).nthOutput 0 =
        (CosineWindowIter.mk 0.5 0.5 0 0 0 3).nthOutput (3 - 1 - 0) ∧
      (CosineWindowIter.mk 0.54 0.46 0 0 0 3).nthOutput 0 =
        (CosineWindowIter.mk 0.54 0.46 0 0 0 3).nthOutput (3 - 1 - 0) ∧
      (CosineWindowIter.mk 0.35875 0.48829 0.14128 0.01168 0 3).nthOutput 0 =
        (CosineWindowIter.mk 0.35875 0.48829 0.14128 0.01168 0 3).nthOutput
          (3 - 1 - 0) ∧
      (CosineWindowIter.mk 0.355768 0.487396 0.144232 0.012604 0 3).nthOutput
          0 =
        (CosineWindowIter.mk 0.355768 0.487396 0.144232 0.012604 0
          3).nthOutput (3 - 1 - 0)) :=
  ⟨by omega, by omega,
    preset_windows_symmetric 3 0 (by omega) (by omega) _ _ _ _
      rfl rfl rfl rfl⟩

/-- C7: reproducibility — two generators independently constructed from the
same coefficients and size (in particular, from the same preset, since each
preset is a fixed-coefficient call of `cosine_iter`) yield elementwise
identical sequences. -/
theorem same_spec_identical_sequences (a b c d : ℝ) (size k : ℕ)
    (h1 : 1 < size) (it1 it2 : CosineWindowIter)
    (hc1 : cosine_iter a b c d size = some it1)
    (hc2 : cosine_iter a b c d size = some it2) :
    it1.nthOutput k = it2.nthOutput k := by
  have h := hc1.symm.trans hc2
  injection h with h
  rw [h]

/-- Witness for C7 with the Hann coefficients at `size = 2`, `k = 0`. -/
theorem same_spec_identical_sequences_witness :
    (1 : ℕ) < 2 ∧
      cosine_iter 0.5 0.5 0 0 2 = some ⟨0.5, 0.5, 0, 0, 0, 2⟩ ∧
      (CosineWindowIter.mk 0.5 0.5 0 0 0 2).nthOutput 0 =
        (CosineWindowIter.mk 0.5 0.5 0 0 0 2).nthOutput 0 :=
  ⟨by omega, rfl,
    same_spec_identical_sequences 0.5 0.5 0 0 2 0 (by omega) _ _ rfl rfl⟩

/-- C8: for every `size > 1`, the Hann window's first yielded value (index
`0`) and last yielded value (index `size - 1`) are exactly `0`: at `x = 0`
the formula gives `a - b = 0.5 - 0.5 = 0`, and at `x = pi` likewise. -/
theorem hanning_endpoints_zero (size : ℕ) (h1 : 1 < size)
    (it : CosineWindowIter) (hit : hanning_iter size = some it) :
    it.nthOutput 0 = some 0 ∧ it.nthOutput (size - 1) = some 0 := by
  rw [hanning_iter, cosine_iter_some _ _ _ _ _ h1] at hit
  injection hit with h
  subst h
  constructor
  · rw [nthOutput_mk_lt _ _ _ _ _ 0 (by omega), cosine_at_zero]
    norm_num
  · rw [nthOutput_mk_lt _ _ _ _ _ (size - 1) (by omega),
      cosine_at_last _ _ _ _ _ h1]
    norm_num

/-- Witness for C8 at `size = 2`. -/
theorem hanning_endpoints_zero_witness :
    (1 : ℕ) < 2 ∧
      ((CosineWindowIter.mk 0.5 0.5 0 0 0 2).nthOutput 0 = some 0 ∧
        (CosineWindowIter.mk 0.5 0.5 0 0 0 2).nthOutput (2 - 1) = some 0) :=
  ⟨by omega, hanning_endpoints_zero 2 (by omega) _ rfl⟩

/-- C9 counterexample: a direct call of `cosine_at` with `size = 1` does
NOT fail an assertion — the source function has no assertion at all (the
`assert!(size > 1)` is in `cosine_iter`).  Concretely, in the IEEE
embedding the call with coefficients `1, 0, 0, 0`, `size = 1`, `index = 0`
returns the value `nan` (from the unguarded `0 / 0`), rather than
failing. -/
theorem cosine_at_size_one_no_panic :
    fpCosine_at (.fin 1) (.fin 0) (.fin 0) (.fin 0) 1 0 = FpVal.nan :=
  fpCosine_at_one_zero 1 0 0 0

/-- C9 amended: `cosine_at` itself performs no size assertion (that
assertion lives in `cosine_iter`, which rejects `size <= 1`) and no bounds
check of `index` against `size`.  A direct call with `size = 1` returns the
value `nan` rather than failing, and a direct call with `index >= size` and
`size > 1` also returns a value — e.g. with the Hann coefficients at the
out-of-range index `2 * (size - 1) >= size` it returns `0`.  (Nothing is
claimed about `size = 0`, where the source's `usize` subtraction
underflows.) -/
theorem cosine_at_no_checks (a b c d : ℝ) (size : ℕ) (h : 1 < size) :
    fpCosine_at (.fin a) (.fin b) (.fin c) (.fin d) 1 0 = FpVal.nan ∧
    size ≤ 2 * (size - 1) ∧
    cosine_at 0.5 0.5 0 0 size (2 * (size - 1)) = 0 ∧
    cosine_iter a b c d 0 = none ∧ cosine_iter a b c d 1 = none := by
  have hn0 : 0 < size - 1 := by omega
  have hn : (0 : ℝ) < ((size - 1 : ℕ) : ℝ) := by exact_mod_cast hn0
  have hne : ((size - 1 : ℕ) : ℝ) ≠ 0 := ne_of_gt hn
  refine ⟨fpCosine_at_one_zero a b c d, by omega, ?_,
    by simp [cosine_iter], by simp [cosine_iter]⟩
  have hx : Real.pi * ((2 * (size - 1) : ℕ) : ℝ) / ((size - 1 : ℕ) : ℝ) =
      2 * Real.pi := by
    have hcast : ((2 * (size - 1) : ℕ) : ℝ) = 2 * ((size - 1 : ℕ) : ℝ) := by
      push_cast
      ring
    rw [hcast,
      show Real.pi * (2 * ((size - 1 : ℕ) : ℝ)) / ((size - 1 : ℕ) : ℝ) =
        2 * Real.pi * (((size - 1 : ℕ) : ℝ) / ((size - 1 : ℕ) : ℝ)) by ring,
      div_self hne, mul_one]
  simp only [cosine_at, hx]
  have h2 : (2 : ℝ) * (2 * Real.pi) = 4 * Real.pi := by ring
  have hc : Real.cos (4 * Real.pi) = 1 := by
    have h0 := cos_four_pi_sub 0
    rw [sub_zero, Real.cos_zero] at h0
    exact h0
  rw [h2, hc]
  norm_num

/-- Witness for the amended C9 at `a = b = c = d = 0`, `size = 2`. -/
theorem cosine_at_no_checks_witness :
    (1 : ℕ) < 2 ∧
      (fpCosine_at (.fin 0) (.fin 0) (.fin 0) (.fin 0) 1 0 = FpVal.nan ∧
        (2 : ℕ) ≤ 2 * (2 - 1) ∧
        cosine_at 0.5 0.5 0 0 2 (2 * (2 - 1)) = 0 ∧
        cosine_iter 0 0 0 0 0 = none ∧ cosine_iter 0 0 0 0 1 = none) :=
  ⟨by omega, cosine_at_no_checks 0 0 0 0 2 (by omega)⟩

/-- C10: a direct call of `cosine_at` with `size = 1` (any finite
coefficients, `index = 0`) signals no error and does not fail fast:
`size - 1` is `0`, the unguarded division `pi * 0 / 0` produces `nan`, the
call silently returns the non-finite value `nan`, and only the generator
constructor `cosine_iter` (not `cosine_at`) checks the size. -/
theorem cosine_at_size_one_nan (a b c d : ℝ) :
    fpCosine_at (.fin a) (.fin b) (.fin c) (.fin d) 1 0 = FpVal.nan ∧
    (fpCosine_at (.fin a) (.fin b) (.fin c) (.fin d) 1 0).isFinite = false ∧
    cosine_iter a b c d 1 = none := by
  have h := fpCosine_at_one_zero a b c d
  refine ⟨h, ?_, by simp [cosine_iter]⟩
  rw [h]
  rfl

end Apodize
